import Mathlib

/-!
Verification of the session layer of aserto-dev/boltdb (store.go, session.go,
config.go, errors.go).

The unit of state is the transaction's view of the database: a tree of
nested buckets.  bolt stores the entries of a bucket in ascending byte
order of keys, a cursor iterates them in that order, and a key may hold
either a value or a nested bucket.  We model a bucket as an association
list of (key, entry) pairs kept in that cursor order; byte strings are
`List Nat`.  Each `Session` method from session.go is translated to a
function on this state, and the session itself (transaction + sticky
error field) to a small state machine.
-/

namespace Boltdb

/-- Byte string: a Go `[]byte` / `string`. -/
abbrev Key := List Nat

/-- An entry of a bucket: a leaf value (`Put` data) or a nested bucket
(`CreateBucket*`).  A bucket is the list of its entries in cursor
(ascending key) order. -/
inductive Entry : Type where
  | value : List Nat → Entry
  | child : List (Key × Entry) → Entry

/-- A bucket: entries in cursor order.  The transaction root is itself a
bucket whose entries are the top-level buckets. -/
abbrev Bucket := List (Key × Entry)

/-- Error taxonomy: errors.go sentinels plus the bbolt sentinels the
session code can observe (`ErrBucketNotFound`, `ErrKeyRequired`,
`ErrBucketNameRequired`, `ErrIncompatibleValue`). -/
inductive SErr : Type where
  | pathNotFound
  | keyNotFound
  | bucketNotFound
  | keyRequired
  | bucketNameRequired
  | incompatibleValue
  deriving DecidableEq, Repr

/-- Ascending byte order on keys (`bytes.Compare < 0`): shorter strings
come first among strings agreeing on a common prefix. -/
def lexLt : Key → Key → Bool
  | [], [] => false
  | [], _ :: _ => true
  | _ :: _, [] => false
  | a :: as, b :: bs => if a < b then true else if a = b then lexLt as bs else false

/-- First entry stored under a key (bolt keys are unique within a
bucket; lookup in the ordered entry list). -/
def lookupEntry : Bucket → Key → Option Entry
  | [], _ => none
  | (k', e) :: rest, k => if k' = k then some e else lookupEntry rest k

/-- Store an entry under a key, keeping the list in ascending key order
(replaces an existing entry in place). -/
def insertEntry : Bucket → Key → Entry → Bucket
  | [], k, e => [(k, e)]
  | (k', e') :: rest, k, e =>
    if lexLt k k' then (k, e) :: (k', e') :: rest
    else if k = k' then (k, e) :: rest
    else (k', e') :: insertEntry rest k e

/-- Replace the entry stored under a key (which must exist) without
moving it. -/
def setEntry : Bucket → Key → Entry → Bucket
  | [], _, _ => []
  | (k', e') :: rest, k, e =>
    if k' = k then (k, e) :: rest else (k', e') :: setEntry rest k e

/-- Remove the entry stored under a key (no-op when absent). -/
def removeEntry : Bucket → Key → Bucket
  | [], _ => []
  | (k', e) :: rest, k => if k' = k then rest else (k', e) :: removeEntry rest k

/-- `Bucket.Bucket(name)` / `Tx.Bucket(name)`: the nested bucket under
`name`, `none` when absent or when the key holds a plain value. -/
def getChild (b : Bucket) (k : Key) : Option Bucket :=
  match lookupEntry b k with
  | some (.child c) => some c
  | _ => none

/-- `Bucket.Get(key)`: the value under `key`, nil (`none`) when the key
is absent or holds a nested bucket. -/
def bget (b : Bucket) (k : Key) : Option (List Nat) :=
  match lookupEntry b k with
  | some (.value v) => some v
  | _ => none

/-- `Bucket.Put(key, value)`: rejects an empty key and a key that holds
a nested bucket, otherwise upserts. -/
def bput (b : Bucket) (k : Key) (v : List Nat) : Bucket × Option SErr :=
  if k = [] then (b, some .keyRequired)
  else match lookupEntry b k with
    | some (.child _) => (b, some .incompatibleValue)
    | _ => (insertEntry b k (.value v), none)

/-- `Bucket.Delete(key)`: rejects a key that holds a nested bucket,
otherwise removes the key (absence is not an error). -/
def bdel (b : Bucket) (k : Key) : Bucket × Option SErr :=
  match lookupEntry b k with
  | some (.child _) => (b, some .incompatibleValue)
  | _ => (removeEntry b k, none)

/-- Inner loop of `Session.setBucket`: descend one segment at a time,
`nil` as soon as a segment is missing. -/
def resolveFrom : Bucket → List Key → Option Bucket
  | b, [] => some b
  | b, p :: rest => (getChild b p).bind fun c => resolveFrom c rest

/-- `Session.setBucket(path)`: resolve a path read-only; an empty path
leaves the running bucket `nil`, which the trailing check turns into
`ErrPathNotFound`. -/
def setBucket (st : Bucket) (path : List Key) : Option Bucket :=
  match path with
  | [] => none
  | _ => resolveFrom st path

/-- Inner loop of `Session.setBucketIfNotExist`: descend, creating each
missing segment with `CreateBucketIfNotExists`.  Buckets created before
a later failure stay created (the transaction is not sub-rolled-back),
so the partially updated tree is returned alongside the error. -/
def ensureFrom : Bucket → List Key → Bucket × Option SErr
  | b, [] => (b, none)
  | b, p :: rest =>
    if p = [] then (b, some .bucketNameRequired)
    else match lookupEntry b p with
      | some (.value _) => (b, some .incompatibleValue)
      | some (.child c) =>
        let r := ensureFrom c rest
        (setEntry b p (.child r.1), r.2)
      | none =>
        let r := ensureFrom [] rest
        (insertEntry b p (.child r.1), r.2)

/-- `Session.setBucketIfNotExist(path)`: the empty path leaves the
running bucket `nil`, reported as `ErrPathNotFound`. -/
def ensurePath (st : Bucket) (path : List Key) : Bucket × Option SErr :=
  match path with
  | [] => (st, some .pathNotFound)
  | _ => ensureFrom st path

/-- Apply an operation to the bucket an already-resolved path points at,
rebuilding the tree around it (the functional rendering of mutating a
bolt bucket handle inside the transaction). -/
def applyFrom : Bucket → (Bucket → Bucket × Option SErr) → List Key → Bucket × Option SErr
  | b, f, [] => f b
  | b, f, p :: rest =>
    match lookupEntry b p with
    | some (.child c) =>
      let r := applyFrom c f rest
      (setEntry b p (.child r.1), r.2)
    | _ => (b, some .pathNotFound)

/-- `Session.Read`: resolve read-only (failure wrapped as
`ErrPathNotFound`), then `Get` (`nil` wrapped as `ErrKeyNotFound`). -/
def readOp (st : Bucket) (path : List Key) (k : Key) : Option (List Nat) × Option SErr :=
  match setBucket st path with
  | none => (none, some .pathNotFound)
  | some b =>
    match bget b k with
    | none => (none, some .keyNotFound)
    | some v => (some v, none)

/-- `Session.Write`: resolve with creation, then `Put`; returns the new
transaction state and the error. -/
def writeOp (st : Bucket) (path : List Key) (k : Key) (v : List Nat) : Bucket × Option SErr :=
  match (ensurePath st path).2 with
  | some e => ((ensurePath st path).1, some e)
  | none => applyFrom (ensurePath st path).1 (fun b => bput b k v) path

/-- `Session.DeleteKey`: resolve with creation, swallowing resolution
errors (`return nil`), then `Delete`. -/
def deleteKeyOp (st : Bucket) (path : List Key) (k : Key) : Bucket × Option SErr :=
  match (ensurePath st path).2 with
  | some _ => ((ensurePath st path).1, none)
  | none => applyFrom (ensurePath st path).1 (fun b => bdel b k) path

/-- `Session.CreateBucket`: `setBucketIfNotExist` and return its error
(the second `b == nil` arm re-wraps a nil error and changes nothing). -/
def createBucketOp (st : Bucket) (path : List Key) : Bucket × Option SErr :=
  ensurePath st path

/-- `Session.KeyExists`: the error its closure records — resolution
failure (wrapped `ErrPathNotFound`) or `ErrKeyNotFound` for a nil
`Get`. -/
def keyExistsErr (st : Bucket) (path : List Key) (k : Key) : Option SErr :=
  match setBucket st path with
  | none => some .pathNotFound
  | some b =>
    match bget b k with
    | none => some .keyNotFound
    | some _ => none

/-- `Session.KeyExists` return value: `err == nil`. -/
def keyExistsRet (st : Bucket) (path : List Key) (k : Key) : Bool :=
  (keyExistsErr st path k).isNone

/-- `Session.BucketExists` closure error: the raw `setBucket` error. -/
def bucketExistsErr (st : Bucket) (path : List Key) : Option SErr :=
  match setBucket st path with
  | none => some .pathNotFound
  | some _ => none

/-- `Session.DeleteBucket`: a one-segment path calls `Tx.DeleteBucket`
directly (whose `ErrBucketNotFound` is NOT swallowed); otherwise the
parent is resolved read-only (failure swallowed) and
`Bucket.DeleteBucket` on it has `ErrBucketNotFound` swallowed.  Go
slices `path[:len(path)-1]`, which we render with `dropLast` (for the
empty path Go would panic on the slice bound; `dropLast [] = []` makes
the resolution fail and the call return nil, the nearest total
behaviour). -/
def deleteBucketOp (st : Bucket) (path : List Key) : Bucket × Option SErr :=
  match path with
  | [p] =>
    match lookupEntry st p with
    | some (.child _) => (removeEntry st p, none)
    | some (.value _) => (st, some .incompatibleValue)
    | none => (st, some .bucketNotFound)
  | _ =>
    match setBucket st path.dropLast with
    | none => (st, none)
    | some _ =>
      applyFrom st
        (fun b =>
          match lookupEntry b (path.getLastD []) with
          | some (.child _) => (removeEntry b (path.getLastD []), none)
          | some (.value _) => (b, some .incompatibleValue)
          | none => (b, none))
        path.dropLast

/-- `pageSize` from config.go. -/
def pageSize : Nat := 100

/-- Cursor start position: `First()` for an empty page token, else
`Seek(token)` — the suffix of the (sorted) entry list from the first
key at or after the token. -/
def seekTo (b : Bucket) (token : Key) : List (Key × Entry) :=
  if token = [] then b else b.dropWhile fun kv => lexLt kv.1 token

/-- The shared cursor-pagination loop of `List` / `ListKeys` /
`ListBuckets`: from the start position collect up to `pageSize` entries
by `Next()`; one further `Next()` yields the continuation token (empty
when the cursor is exhausted). -/
def pageAt (b : Bucket) (token : Key) : List (Key × Entry) × Key :=
  ((seekTo b token).take pageSize,
   match (seekTo b token).drop pageSize with
   | [] => []
   | kv :: _ => kv.1)

/-- Value the cursor reports for an entry: nil for a nested bucket. -/
def entryVal : Entry → Option (List Nat)
  | .value v => some v
  | .child _ => none

/-- `Session.List`: keys, values, next token, returned error.  A
resolution error is swallowed: empty results, empty token, nil
error. -/
def listOp (st : Bucket) (path : List Key) (token : Key) :
    List Key × List (Option (List Nat)) × Key × Option SErr :=
  match setBucket st path with
  | none => ([], [], [], none)
  | some b =>
    ((pageAt b token).1.map (·.1), (pageAt b token).1.map (fun kv => entryVal kv.2),
     (pageAt b token).2, none)

/-- `Session.ListKeys`: keys, next token, returned error (resolution
errors swallowed as in `List`). -/
def listKeysOp (st : Bucket) (path : List Key) (token : Key) :
    List Key × Key × Option SErr :=
  match setBucket st path with
  | none => ([], [], none)
  | some b => ((pageAt b token).1.map (·.1), (pageAt b token).2, none)

/-- `Session.ListBuckets`: an empty path enumerates every top-level
bucket with `Tx.ForEach` (no page limit, token left empty); a non-empty
path pages the resolved bucket's cursor, and — unlike `List` and
`ListKeys` — RETURNS the resolution error. -/
def listBucketsOp (st : Bucket) (path : List Key) (token : Key) :
    List Key × Key × Option SErr :=
  match path with
  | [] =>
    ((st.filterMap fun kv =>
        match kv.2 with
        | .child _ => some kv.1
        | _ => none),
     [], none)
  | _ =>
    match setBucket st path with
    | none => ([], [], some .pathNotFound)
    | some b => ((pageAt b token).1.map (·.1), (pageAt b token).2, none)

/-- `Session.PrefixExists`: resolve (failure wrapped `ErrPathNotFound`
and returned), seek to the prefix and test only the first key at or
after it that is still inside the prefix range. -/
def prefixExistsOp (st : Bucket) (path : List Key) (pre : Key) : Bool × Option SErr :=
  match setBucket st path with
  | none => (false, some .pathNotFound)
  | some b =>
    match b.dropWhile (fun kv => lexLt kv.1 pre) with
    | [] => (false, none)
    | kv :: _ => (pre.isPrefixOf kv.1, none)

/-- The entries `ReadScan` collects from a bucket: from `Seek(prefix)`
while the key still has the prefix. -/
def scanEntries (b : Bucket) (pre : Key) : List (Key × Entry) :=
  (b.dropWhile (fun kv => lexLt kv.1 pre)).takeWhile fun kv => pre.isPrefixOf kv.1

/-- `Session.ReadScan`: resolve (failure wrapped `ErrPathNotFound` and
returned), then collect every entry from `Seek(prefix)` while the key
still has the prefix. -/
def readScanOp (st : Bucket) (path : List Key) (pre : Key) :
    List Key × List (Option (List Nat)) × Option SErr :=
  match setBucket st path with
  | none => ([], [], some .pathNotFound)
  | some b =>
    ((scanEntries b pre).map (·.1), (scanEntries b pre).map (fun kv => entryVal kv.2),
     none)

/-- The error `List` / `ListKeys` record on the session (`s.err = err`)
before swallowing it in the return value. -/
def listErr (st : Bucket) (path : List Key) : Option SErr :=
  match setBucket st path with
  | none => some .pathNotFound
  | some _ => none

/-- The error `ListBuckets` records on the session: none for the empty
path (the `ForEach` walk ignores errors), else the resolution error. -/
def listBucketsErr (st : Bucket) (path : List Key) : Option SErr :=
  match path with
  | [] => none
  | _ => listErr st path

/-- One session operation (every `Session` method except `NextSeq`,
whose sequence counters the model does not carry). -/
inductive Op : Type where
  | read (path : List Key) (key : Key)
  | write (path : List Key) (key : Key) (val : List Nat)
  | keyExists (path : List Key) (key : Key)
  | deleteKey (path : List Key) (key : Key)
  | createBucket (path : List Key)
  | deleteBucket (path : List Key)
  | bucketExists (path : List Key)
  | list (path : List Key) (token : Key)
  | listKeys (path : List Key) (token : Key)
  | listBuckets (path : List Key) (token : Key)
  | prefixExists (path : List Key) (pre : Key)
  | readScan (path : List Key) (pre : Key)

/-- Effect of one operation on a session bound to an explicit
transaction: the new transaction state and the error the method assigns
to `s.err` (every method executes `s.err = err` with its own result). -/
def opRun (st : Bucket) : Op → Bucket × Option SErr
  | .read path k => (st, (readOp st path k).2)
  | .write path k v => writeOp st path k v
  | .keyExists path k => (st, keyExistsErr st path k)
  | .deleteKey path k => deleteKeyOp st path k
  | .createBucket path => createBucketOp st path
  | .deleteBucket path => deleteBucketOp st path
  | .bucketExists path => (st, bucketExistsErr st path)
  | .list path _ => (st, listErr st path)
  | .listKeys path _ => (st, listErr st path)
  | .listBuckets path _ => (st, listBucketsErr st path)
  | .prefixExists path pre => (st, (prefixExistsOp st path pre).2)
  | .readScan path pre => (st, (readScanOp st path pre).2.2)

/-- A session in explicit-transaction mode: the transaction's state and
the session error field. -/
structure SessState : Type where
  st : Bucket
  err : Option SErr

/-- Run one method on the session: the method body runs against the
bound transaction and `s.err = err` overwrites the error field. -/
def stepOp (s : SessState) (op : Op) : SessState :=
  { st := (opRun s.st op).1, err := (opRun s.st op).2 }

/-- Run a sequence of methods on the session. -/
def runOps (s : SessState) : List Op → SessState
  | [] => s
  | op :: rest => runOps (stepOp s op) rest

/-- `Store.WriteSession`'s closer: roll back (discarding the
transaction, the database keeps its pre-session state) when
`session.err != nil`, commit (persisting the transaction state)
otherwise. -/
def closeWrite (initial : Bucket) (s : SessState) : Bucket :=
  match s.err with
  | some _ => initial
  | none => s.st

/-- Outcome of an ad hoc (nil-transaction) call: the Go code can panic,
return an error, or return a result. -/
inductive AdHoc (α : Type) : Type where
  | panics : AdHoc α
  | failed : SErr → AdHoc α
  | ok : α → AdHoc α
  deriving Repr

/-- `Session.setBucket` when `s.tx == nil`: the closures handed to
`db.View` / `db.Update` ignore their transaction parameter and call
`s.setBucket`, which runs `s.tx.Bucket(...)` on the nil transaction —
a nil-pointer dereference for any non-empty path.  The empty path
skips the loop and reports `ErrPathNotFound`. -/
def setBucketNilTx (path : List Key) : AdHoc Bucket :=
  match path with
  | [] => .failed .pathNotFound
  | _ :: _ => .panics

/-- `Session.setBucketIfNotExist` when `s.tx == nil`:
`s.tx.CreateBucketIfNotExists` dereferences the nil transaction for any
non-empty path. -/
def setBucketIfNotExistNilTx (path : List Key) : AdHoc Bucket :=
  match path with
  | [] => .failed .pathNotFound
  | _ :: _ => .panics

/-- `Session.Read` in ad hoc mode: `db.View` opens a fresh read
transaction over the database state `db`, but the closure resolves via
the nil `s.tx`. -/
def adHocRead (db : Bucket) (path : List Key) (key : Key) : AdHoc (List Nat) :=
  match db, setBucketNilTx path with
  | _, .panics => .panics
  | _, .failed _ => .failed .pathNotFound
  | _, .ok b =>
    match bget b key with
    | none => .failed .keyNotFound
    | some v => .ok v

/-- `Session.Write` in ad hoc mode: `db.Update` opens a fresh write
transaction, but the closure resolves via the nil `s.tx`. -/
def adHocWrite (db : Bucket) (path : List Key) (key : Key) (v : List Nat) :
    AdHoc Bucket :=
  match db, v, setBucketIfNotExistNilTx path with
  | _, _, .panics => .panics
  | _, _, .failed e => .failed e
  | db, v, .ok _ => .ok (writeOp db path key v).1

/-- Ascending-key ordering of a bucket's entry list (the invariant bolt
maintains for cursor iteration). -/
def keysSorted (b : Bucket) : Prop :=
  List.Pairwise (fun x y : Key × Entry => lexLt x.1 y.1 = true) b

instance (b : Bucket) : Decidable (keysSorted b) := by
  unfold keysSorted; infer_instance

end Boltdb

namespace Boltdb

/-- Repeated paging over one bucket: call the page loop, then follow
the continuation token until it is empty (`fuel` bounds the number of
pages; any `fuel` past the number of needed pages gives the same
result). -/
def pagesFrom (b : Bucket) (token : Key) : Nat → List (Key × Entry)
  | 0 => []
  | n + 1 =>
    if (pageAt b token).2 = [] then (pageAt b token).1
    else (pageAt b token).1 ++ pagesFrom b (pageAt b token).2 n

/-- Drive `ListKeys` to exhaustion from a page token, concatenating the
pages. -/
def listKeysPages (st : Bucket) (path : List Key) (token : Key) : Nat → List Key
  | 0 => []
  | n + 1 =>
    if (listKeysOp st path token).2.1 = [] then (listKeysOp st path token).1
    else (listKeysOp st path token).1 ++
      listKeysPages st path (listKeysOp st path token).2.1 n

/-- Drive `List` to exhaustion, concatenating the key pages and the
value pages. -/
def listPages (st : Bucket) (path : List Key) (token : Key) :
    Nat → List Key × List (Option (List Nat))
  | 0 => ([], [])
  | n + 1 =>
    if (listOp st path token).2.2.1 = []
    then ((listOp st path token).1, (listOp st path token).2.1)
    else
      ((listOp st path token).1 ++
        (listPages st path (listOp st path token).2.2.1 n).1,
       (listOp st path token).2.1 ++
        (listPages st path (listOp st path token).2.2.1 n).2)

/-- Drive `ListBuckets` to exhaustion from a page token, concatenating
the pages. -/
def listBucketsPages (st : Bucket) (path : List Key) (token : Key) : Nat → List Key
  | 0 => []
  | n + 1 =>
    if (listBucketsOp st path token).2.1 = [] then (listBucketsOp st path token).1
    else (listBucketsOp st path token).1 ++
      listBucketsPages st path (listBucketsOp st path token).2.1 n

/-- A transaction root holding 101 top-level buckets (single-byte
names 0..100). -/
def root101 : Bucket := (List.range 101).map fun i => ([i], Entry.child [])

/-- Concrete two-entry store used by witnesses: bucket "a" (byte 97)
holding keys "b" ↦ [5] and "c" ↦ [7]. -/
def stA : Bucket := [([97], Entry.child [([98], Entry.value [5]), ([99], Entry.value [7])])]

/-- The bucket `stA` holds at path ["a"]. -/
def bA : Bucket := [([98], Entry.value [5]), ([99], Entry.value [7])]

end Boltdb

/-! ### Order and prefix lemmas for byte strings -/

namespace Boltdb

theorem lexLt_irrefl (a : Key) : lexLt a a = false := by
  induction a with
  | nil => rfl
  | cons x xs ih => simp [lexLt, ih]

theorem lexLt_trans {a b c : Key} (h1 : lexLt a b = true) (h2 : lexLt b c = true) :
    lexLt a c = true := by
  induction a generalizing b c with
  | nil =>
    cases b with
    | nil => simp [lexLt] at h1
    | cons y ys =>
      cases c with
      | nil => simp [lexLt] at h2
      | cons z zs => simp [lexLt]
  | cons x xs ih =>
    cases b with
    | nil => simp [lexLt] at h1
    | cons y ys =>
      cases c with
      | nil => simp [lexLt] at h2
      | cons z zs =>
        simp only [lexLt] at h1 h2 ⊢
        by_cases hxy : x < y
        · by_cases hyz : y < z
          · rw [if_pos (by omega : x < z)]
          · by_cases hyz' : y = z
            · rw [if_pos (by omega : x < z)]
            · rw [if_neg hyz, if_neg hyz'] at h2; simp at h2
        · by_cases hxy' : x = y
          · subst hxy'
            rw [if_neg hxy, if_pos rfl] at h1
            by_cases hxz : x < z
            · rw [if_pos hxz]
            · by_cases hxz' : x = z
              · subst hxz'
                rw [if_neg hxz, if_pos rfl] at h2 ⊢
                exact ih h1 h2
              · rw [if_neg hxz, if_neg hxz'] at h2; simp at h2
          · rw [if_neg hxy, if_neg hxy'] at h1; simp at h1

/-- A byte string never sorts before one of its prefixes:
`p.isPrefixOf k → ¬ (k < p)`. -/
theorem lexLt_of_isPrefixOf {p k : Key} (h : p.isPrefixOf k = true) :
    lexLt k p = false := by
  induction p generalizing k with
  | nil => cases k <;> rfl
  | cons x xs ih =>
    cases k with
    | nil => simp [List.isPrefixOf] at h
    | cons y ys =>
      simp only [List.isPrefixOf, Bool.and_eq_true, beq_iff_eq] at h
      obtain ⟨rfl, h2⟩ := h
      simp [lexLt, ih h2]

/-- The keys sharing a prefix form an interval of the ascending order:
if `p ≤ h ≤ k` and `p` is a prefix of `k`, it is a prefix of `h`. -/
theorem isPrefixOf_of_between {p h k : Key} (hp : lexLt h p = false)
    (hk : lexLt h k = true ∨ h = k) (hpre : p.isPrefixOf k = true) :
    p.isPrefixOf h = true := by
  rcases hk with hk | rfl
  · induction p generalizing h k with
    | nil => simp [List.isPrefixOf]
    | cons x xs ih =>
      cases k with
      | nil => simp [List.isPrefixOf] at hpre
      | cons z zs =>
        simp only [List.isPrefixOf, Bool.and_eq_true, beq_iff_eq] at hpre
        obtain ⟨rfl, hpre2⟩ := hpre
        cases h with
        | nil => simp [lexLt] at hp
        | cons y ys =>
          simp only [lexLt] at hp hk
          by_cases hyx : y < x
          · rw [if_pos hyx] at hp; simp at hp
          · by_cases hyx' : y = x
            · subst hyx'
              rw [if_neg hyx, if_pos rfl] at hp hk
              simp only [List.isPrefixOf, Bool.and_eq_true, beq_iff_eq]
              exact ⟨trivial, ih hp hpre2 hk⟩
            · rw [if_neg hyx, if_neg hyx'] at hk; simp at hk
  · exact hpre

/-! ### List scanning helpers -/

theorem dropWhile_head_false {α : Type} {p : α → Bool} {l : List α} {x : α} {xs : List α}
    (h : l.dropWhile p = x :: xs) : p x = false := by
  induction l with
  | nil => simp [List.dropWhile] at h
  | cons y ys ih =>
    rw [List.dropWhile] at h
    cases hy : p y with
    | true => rw [hy] at h; exact ih h
    | false => rw [hy] at h; cases h; exact hy

theorem mem_dropWhile_of_false {α : Type} {p : α → Bool} {l : List α} {x : α}
    (hmem : x ∈ l) (hx : p x = false) : x ∈ l.dropWhile p := by
  induction l with
  | nil => cases hmem
  | cons y ys ih =>
    rw [List.dropWhile]
    cases hy : p y with
    | true =>
      rcases List.mem_cons.mp hmem with rfl | hmem'
      · rw [hy] at hx; cases hx
      · exact ih hmem'
    | false => exact hmem

theorem dropWhile_append_cons {α : Type} {p : α → Bool} {pre tail : List α} {x : α}
    (hpre : ∀ a ∈ pre, p a = true) (hx : p x = false) :
    (pre ++ x :: tail).dropWhile p = x :: tail := by
  induction pre with
  | nil => simp [List.dropWhile, hx]
  | cons a as ih =>
    rw [List.cons_append, List.dropWhile, hpre a (List.mem_cons_self a as)]
    exact ih fun b hb => hpre b (List.mem_cons_of_mem a hb)

/-! ### Entry-list lookup and update lemmas -/

theorem lookup_insertEntry_self (b : Bucket) (k : Key) (e : Entry) :
    lookupEntry (insertEntry b k e) k = some e := by
  induction b with
  | nil => simp [insertEntry, lookupEntry]
  | cons kv rest ih =>
    obtain ⟨k', e'⟩ := kv
    rw [insertEntry]
    by_cases hlt : lexLt k k' = true
    · rw [if_pos hlt, lookupEntry, if_pos rfl]
    · rw [if_neg (by simpa using hlt)]
      by_cases heq : k = k'
      · rw [if_pos heq, lookupEntry, if_pos rfl]
      · rw [if_neg heq, lookupEntry, if_neg fun h => heq h.symm]
        exact ih

theorem lookup_setEntry_self {b : Bucket} {k : Key} {e0 : Entry} (e : Entry)
    (h : lookupEntry b k = some e0) :
    lookupEntry (setEntry b k e) k = some e := by
  induction b with
  | nil => simp [lookupEntry] at h
  | cons kv rest ih =>
    obtain ⟨k', e'⟩ := kv
    rw [lookupEntry] at h
    by_cases heq : k' = k
    · subst heq
      rw [setEntry, if_pos rfl, lookupEntry, if_pos rfl]
    · rw [if_neg heq] at h
      rw [setEntry, if_neg heq, lookupEntry, if_neg heq]
      exact ih h

theorem lookupEntry_of_getChild {b : Bucket} {p : Key} {c : Bucket}
    (h : getChild b p = some c) : lookupEntry b p = some (.child c) := by
  unfold getChild at h
  split at h
  · cases h; assumption
  · cases h

theorem getChild_setEntry {b : Bucket} {p : Key} {e0 : Entry} (c : Bucket)
    (h : lookupEntry b p = some e0) :
    getChild (setEntry b p (.child c)) p = some c := by
  rw [getChild, lookup_setEntry_self (Entry.child c) h]

theorem getChild_insertEntry (b : Bucket) (p : Key) (c : Bucket) :
    getChild (insertEntry b p (.child c)) p = some c := by
  rw [getChild, lookup_insertEntry_self]

theorem resolveFrom_of_setBucket {st : Bucket} {q : List Key} {x : Bucket}
    (h : setBucket st q = some x) : resolveFrom st q = some x := by
  unfold setBucket at h
  cases q with
  | nil => cases h
  | cons p rest => exact h

/-- A successful creating walk leaves a tree in which the path fully
resolves. -/
theorem ensureFrom_resolves {path : List Key} {b : Bucket}
    (h : (ensureFrom b path).2 = none) :
    ∃ c, resolveFrom (ensureFrom b path).1 path = some c := by
  induction path generalizing b with
  | nil => exact ⟨b, rfl⟩
  | cons p rest ih =>
    rw [ensureFrom] at h ⊢
    by_cases hp : p = []
    · rw [if_pos hp] at h; cases h
    · rw [if_neg hp] at h ⊢
      cases hl : lookupEntry b p with
      | none =>
        simp only [hl] at h ⊢
        obtain ⟨c, hres⟩ := ih h
        refine ⟨c, ?_⟩
        rw [resolveFrom, getChild_insertEntry]
        exact hres
      | some e =>
        cases e with
        | value v => simp [hl] at h
        | child cb =>
          simp only [hl] at h ⊢
          obtain ⟨c, hres⟩ := ih h
          refine ⟨c, ?_⟩
          rw [resolveFrom, getChild_setEntry _ hl]
          exact hres

/-- Applying an operation at a resolved path: the error is the
operation's error at the resolved bucket, and the path then resolves to
the operation's result. -/
theorem applyFrom_spec {q : List Key} {b c : Bucket}
    (f : Bucket → Bucket × Option SErr) (h : resolveFrom b q = some c) :
    (applyFrom b f q).2 = (f c).2 ∧
      resolveFrom (applyFrom b f q).1 q = some (f c).1 := by
  induction q generalizing b with
  | nil =>
    cases h
    exact ⟨rfl, rfl⟩
  | cons p rest ih =>
    rw [resolveFrom] at h
    cases hg : getChild b p with
    | none => rw [hg] at h; cases h
    | some cb =>
      rw [hg] at h
      replace h : resolveFrom cb rest = some c := h
      have hl : lookupEntry b p = some (.child cb) := lookupEntry_of_getChild hg
      rw [applyFrom, hl]
      obtain ⟨h1, h2⟩ := ih h
      dsimp only
      refine ⟨h1, ?_⟩
      rw [resolveFrom, getChild_setEntry _ hl]
      exact h2

/-- `Put` then `Get` on one bucket. -/
theorem bput_bget {b : Bucket} {k : Key} {v : List Nat}
    (h : (bput b k v).2 = none) : bget (bput b k v).1 k = some v := by
  unfold bput at h ⊢
  by_cases hk : k = []
  · rw [if_pos hk] at h; cases h
  · rw [if_neg hk] at h ⊢
    cases hl : lookupEntry b k with
    | none =>
      simp only [hl]
      rw [bget, lookup_insertEntry_self]
    | some e =>
      cases e with
      | value v' =>
        simp only [hl]
        rw [bget, lookup_insertEntry_self]
      | child c => simp [hl] at h

/-! ### C8: write followed by read -/

/-- C8 (confirmed): for every path, key and value on which the write
applies ("valid" path/key: the write itself reports no error),
`Write(P,K,V)` followed by `Read(P,K)` against the resulting state
returns exactly V with no error.  Commit preserves the transaction
state, so the same holds from a later session over the committed
database. -/
theorem write_then_read (st : Bucket) (path : List Key) (k : Key) (v : List Nat)
    (hw : (writeOp st path k v).2 = none) :
    readOp (writeOp st path k v).1 path k = (some v, none) := by
  cases path with
  | nil => simp [writeOp, ensurePath] at hw
  | cons p ps =>
    rw [writeOp] at hw ⊢
    have hep : ensurePath st (p :: ps) = ensureFrom st (p :: ps) := rfl
    rw [hep] at hw ⊢
    cases he : (ensureFrom st (p :: ps)).2 with
    | some e => simp only [he] at hw; cases hw
    | none =>
      simp only [he] at hw ⊢
      obtain ⟨c, hres⟩ := ensureFrom_resolves he
      obtain ⟨h1, h2⟩ := applyFrom_spec (fun b => bput b k v) hres
      rw [h1] at hw
      have hsb : setBucket
          (applyFrom (ensureFrom st (p :: ps)).1 (fun b => bput b k v) (p :: ps)).1
          (p :: ps) = some (bput c k v).1 := h2
      rw [readOp]
      simp only [hsb, bput_bget hw]

/-! ### C1 / C2 / C10: the session error field and the write closer -/

theorem runOps_append (s : SessState) (l1 l2 : List Op) :
    runOps s (l1 ++ l2) = runOps (runOps s l1) l2 := by
  induction l1 generalizing s with
  | nil => rfl
  | cons op rest ih => rw [List.cons_append, runOps, runOps, ih]

/-- C1 counterexample: on a session bound to an explicit transaction
over an empty store, `Read(["a"],"k")` records `ErrPathNotFound` on the
session, and a following successful `CreateBucket(["a"])` CLEARS the
error field — the recorded error does not survive a later successful
operation, contradicting "first error wins". -/
theorem session_error_cleared_counterexample :
    (stepOp ⟨[], none⟩ (Op.read [[97]] [107])).err = some SErr.pathNotFound ∧
      (runOps ⟨[], none⟩ [Op.read [[97]] [107], Op.createBucket [[97]]]).err = none := by
  exact ⟨rfl, rfl⟩

/-- C1 amended: every method executes `s.err = err` with its own
result, so after any operation sequence the session error field holds
exactly the error of the MOST RECENT operation (the last write wins;
a later success overwrites an earlier failure with nil). -/
theorem session_error_is_last_op (s : SessState) (ops : List Op) (op : Op) :
    (runOps s (ops ++ [op])).err = (opRun (runOps s ops).st op).2 := by
  rw [runOps_append]; rfl

/-- C2 counterexample: in a write session over an empty store,
`Read(["a"],"k")` fails (recording an error) and a later
`Write(["a"],"k",[1])` succeeds; the closer then COMMITS (the committed
state contains the write: reading it back yields [1]), although an
operation of the session had recorded an error — the promised rollback
to the pre-session empty store (where the same read errors) does not
happen. -/
theorem write_session_commits_after_error_counterexample :
    (stepOp ⟨[], none⟩ (Op.read [[97]] [107])).err = some SErr.pathNotFound ∧
      readOp (closeWrite []
          (runOps ⟨[], none⟩ [Op.read [[97]] [107], Op.write [[97]] [107] [1]]))
          [[97]] [107] = (some [1], none) ∧
      readOp [] [[97]] [107] = (none, some SErr.pathNotFound) := by
  exact ⟨rfl, rfl, rfl⟩

/-- C2 amended: the closer of a write session rolls back exactly when
the error recorded by the session's LAST operation is non-nil; rollback
restores the pre-session state, and otherwise the transaction state
(all surviving writes) is committed — regardless of errors of earlier
operations. -/
theorem close_commits_iff_last_op_ok (initial : Bucket) (ops : List Op) (op : Op) :
    closeWrite initial (runOps ⟨initial, none⟩ (ops ++ [op])) =
      if (opRun (runOps ⟨initial, none⟩ ops).st op).2 = none
      then (runOps ⟨initial, none⟩ (ops ++ [op])).st
      else initial := by
  rw [runOps_append]
  cases he : (opRun (runOps ⟨initial, none⟩ ops).st op).2 with
  | none => simp only [runOps, stepOp, closeWrite, he, if_pos]
  | some e =>
    rw [if_neg (by simp [he])]
    simp only [runOps, stepOp, closeWrite, he]

/-- C10 (confirmed): on an explicit-transaction session, `KeyExists`
for an absent key or an unresolvable path returns false AND records the
not-found error on the session; consequently a write session whose last
operation is such a `KeyExists` call rolls back all its writes when
closed — the closer returns the pre-session state. -/
theorem keyExists_failure_forces_rollback (s : SessState) (path : List Key) (k : Key)
    (initial : Bucket) (ops : List Op)
    (h1 : keyExistsErr s.st path k ≠ none)
    (h2 : keyExistsErr (runOps ⟨initial, none⟩ ops).st path k ≠ none) :
    keyExistsRet s.st path k = false ∧
      (stepOp s (Op.keyExists path k)).err = keyExistsErr s.st path k ∧
      closeWrite initial (runOps ⟨initial, none⟩ (ops ++ [Op.keyExists path k])) =
        initial := by
  refine ⟨?_, rfl, ?_⟩
  · rw [keyExistsRet]
    cases hke : keyExistsErr s.st path k with
    | none => exact absurd hke h1
    | some e => rfl
  · rw [runOps_append]
    cases hke : keyExistsErr (runOps ⟨initial, none⟩ ops).st path k with
    | none => exact absurd hke h2
    | some e => simp only [runOps, stepOp, opRun, closeWrite, hke]

/-- Witness for `keyExists_failure_forces_rollback`: on the empty store
the hypotheses hold for path ["a"], key "l" — on an empty store the
path does not resolve, and after writing key "k" the key "l" is still
absent — and the session that wrote "k" and then checked "l" rolls
back to the empty store. -/
theorem keyExists_failure_forces_rollback_witness :
    keyExistsErr [] [[97]] [108] ≠ none ∧
      keyExistsErr (runOps ⟨[], none⟩ [Op.write [[97]] [107] [1]]).st [[97]] [108] ≠
        none ∧
      closeWrite [] (runOps ⟨[], none⟩
        ([Op.write [[97]] [107] [1]] ++ [Op.keyExists [[97]] [108]])) = [] := by
  refine ⟨by decide, by decide, ?_⟩
  exact (keyExists_failure_forces_rollback ⟨[], none⟩ [[97]] [108] []
    [Op.write [[97]] [107] [1]] (by decide) (by decide)).2.2

/-! ### C5: the ad hoc (nil-transaction) mode -/

/-- C5 (code bug): with no explicit transaction bound, the convenience
path does open its own transaction via `db.View` / `db.Update`, but the
closures ignore that transaction and resolve through the nil `s.tx`, so
any operation with a non-empty path dereferences a nil pointer and
panics instead of terminating normally — here shown for `Read` and
`Write` at path ["a"], for every database state, key and value. -/
theorem adhoc_mode_panics (db : Bucket) (k : Key) (v : List Nat) :
    adHocRead db [[97]] k = AdHoc.panics ∧ adHocWrite db [[97]] k v = AdHoc.panics :=
  ⟨rfl, rfl⟩

/-! ### C3: error suppression of the pagination operations -/

/-- C3 counterexample: on the empty store the path ["a"] does not
resolve, and `ListBuckets` returns the resolution error to the caller —
not the nil error the claim asserts for all three pagination
operations. -/
theorem listBuckets_returns_error_counterexample :
    (listBucketsOp [] [[97]] []).2.2 ≠ none := by
  decide

/-- C3 amended: on a path that fails to resolve, `List` and `ListKeys`
return an empty result set, an empty continuation token and a nil
error (the resolution error is suppressed), while `ListBuckets` — whose
empty-path case never resolves a path — returns empty results and an
empty token but PROPAGATES the resolution error. -/
theorem pagination_on_unresolvable_path (st : Bucket) (path : List Key) (tok : Key)
    (h : setBucket st path = none) :
    listOp st path tok = ([], [], [], none) ∧
      listKeysOp st path tok = ([], [], none) ∧
      (path ≠ [] → listBucketsOp st path tok = ([], [], some .pathNotFound)) := by
  refine ⟨?_, ?_, ?_⟩
  · rw [listOp]; simp only [h]
  · rw [listKeysOp]; simp only [h]
  · intro hne
    cases path with
    | nil => exact absurd rfl hne
    | cons p ps =>
      rw [listBucketsOp]
      case x_1 => simp
      simp only [h]

/-- Witness for `pagination_on_unresolvable_path` at the empty store
and path ["a"]. -/
theorem pagination_on_unresolvable_path_witness :
    setBucket [] [[97]] = none ∧ listKeysOp [] [[97]] [] = ([], [], none) := by
  exact ⟨rfl, (pagination_on_unresolvable_path [] [[97]] [] rfl).2.1⟩

/-! ### C4: DeleteBucket idempotence -/

/-- C4 counterexample: deleting the nonexistent top-level bucket "a"
through the single-segment path ["a"] calls `Tx.DeleteBucket` directly
and returns its `ErrBucketNotFound` — not the claimed nil error. -/
theorem deleteBucket_single_segment_errors_counterexample :
    (deleteBucketOp [] [[97]]).2 ≠ none := by
  decide

/-- C4 amended: `DeleteBucket` is idempotent for multi-segment paths —
if the parent path does not resolve, or the final segment is absent
from its parent (never created or already deleted), the call returns no
error — but a single-segment path whose top-level bucket does not exist
returns the engine's bucket-not-found error (see the counterexample). -/
theorem deleteBucket_multiseg_idempotent (st : Bucket) (path : List Key)
    (hlen : 2 ≤ path.length)
    (habs : setBucket st path.dropLast = none ∨
      ∃ parent, setBucket st path.dropLast = some parent ∧
        lookupEntry parent (path.getLastD []) = none) :
    (deleteBucketOp st path).2 = none := by
  match path, hlen with
  | p1 :: p2 :: ps, _ =>
    rw [deleteBucketOp]
    case x_1 => simp
    rcases habs with h | ⟨parent, hp, hl⟩
    · simp only [h]
    · simp only [hp]
      have hres := resolveFrom_of_setBucket hp
      obtain ⟨h1, _⟩ := applyFrom_spec
        (fun b =>
          match lookupEntry b ((p1 :: p2 :: ps).getLastD []) with
          | some (.child _) => (removeEntry b ((p1 :: p2 :: ps).getLastD []), none)
          | some (.value _) => (b, some .incompatibleValue)
          | none => (b, none)) hres
      rw [h1, hl]

/-- Witness for `deleteBucket_multiseg_idempotent`: deleting
["a","b"] on the empty store (the parent "a" does not resolve) returns
no error. -/
theorem deleteBucket_multiseg_idempotent_witness :
    (2 ≤ ([[97], [98]] : List Key).length) ∧ (deleteBucketOp [] [[97], [98]]).2 = none := by
  exact ⟨by decide, deleteBucket_multiseg_idempotent [] [[97], [98]] (by decide)
    (Or.inl rfl)⟩

/-! ### C7: the page-size bound -/

/-- C7 counterexample: a store with 101 top-level buckets; `ListBuckets`
with the empty path walks `Tx.ForEach` with no page limit and returns
all 101 names in one call, exceeding the claimed 100-entry bound. -/
theorem listBuckets_empty_path_unbounded_counterexample :
    pageSize < (listBucketsOp root101 [] []).1.length := by
  decide

/-- C7 amended: every single call to `List`, `ListKeys`, or
`ListBuckets` with a NON-EMPTY path returns at most `pageSize` (100)
entries; `ListBuckets` with the empty path is not page-limited (see the
counterexample). -/
theorem page_size_bound (st : Bucket) (path : List Key) (tok : Key) :
    (listKeysOp st path tok).1.length ≤ pageSize ∧
      (listOp st path tok).1.length ≤ pageSize ∧
      (path ≠ [] → (listBucketsOp st path tok).1.length ≤ pageSize) := by
  refine ⟨?_, ?_, ?_⟩
  · rw [listKeysOp]
    cases h : setBucket st path with
    | none => simp
    | some b =>
      simp only [List.length_map]
      exact List.length_take_le _ _
  · rw [listOp]
    cases h : setBucket st path with
    | none => simp
    | some b =>
      simp only [List.length_map]
      exact List.length_take_le _ _
  · intro hne
    cases path with
    | nil => exact absurd rfl hne
    | cons p ps =>
      rw [listBucketsOp]
      case x_1 => simp
      cases h : setBucket st (p :: ps) with
      | none => simp
      | some b =>
        simp only [List.length_map]
        exact List.length_take_le _ _

/-- Witness for `page_size_bound` on the concrete two-entry store. -/
theorem page_size_bound_witness :
    ([[97]] : List Key) ≠ [] ∧ (listBucketsOp stA [[97]] []).1.length ≤ pageSize := by
  exact ⟨by decide, (page_size_bound stA [[97]] []).2.2 (by decide)⟩

/-- Witness for `write_then_read` on the empty store at path ["a"],
key "k", value [1]. -/
theorem write_then_read_witness :
    (writeOp [] [[97]] [107] [1]).2 = none ∧
      readOp (writeOp [] [[97]] [107] [1]).1 [[97]] [107] = (some [1], none) :=
  ⟨rfl, write_then_read [] [[97]] [107] [1] rfl⟩

/-! ### C9: prefix matching -/

/-- On a sorted tail whose every key is at or after the prefix, the
prefix-bounded cursor walk (stop at the first non-match) collects
exactly the matching entries. -/
theorem takeWhile_isPrefixOf_eq_filter (pre : Key) :
    ∀ l : List (Key × Entry),
      List.Pairwise (fun x y : Key × Entry => lexLt x.1 y.1 = true) l →
      (∀ x ∈ l, lexLt x.1 pre = false) →
      (l.takeWhile fun kv => pre.isPrefixOf kv.1) =
        l.filter fun kv => pre.isPrefixOf kv.1 := by
  intro l
  induction l with
  | nil => intro _ _; rfl
  | cons x xs ih =>
    intro hsort hge
    obtain ⟨hall, hxs⟩ := List.pairwise_cons.mp hsort
    cases hPx : (pre.isPrefixOf x.1 : Bool) with
    | true =>
      simp only [List.takeWhile_cons, List.filter_cons, hPx, if_pos trivial]
      rw [ih hxs fun y hy => hge y (List.mem_cons_of_mem x hy)]
    | false =>
      simp [List.takeWhile_cons, List.filter_cons, hPx]
      intro a b hab hPy
      have hx : pre.isPrefixOf x.1 = true :=
        isPrefixOf_of_between (hge x (List.mem_cons_self x xs))
          (Or.inl (hall (a, b) hab)) (List.isPrefixOf_iff_prefix.mpr hPy)
      rw [hPx] at hx
      cases hx

/-- On a sorted bucket the prefix-bounded cursor walk of `ReadScan`
collects exactly the entries whose key starts with the prefix. -/
theorem scan_eq_filter (pre : Key) : ∀ {b : Bucket}, keysSorted b →
    scanEntries b pre = b.filter fun kv => pre.isPrefixOf kv.1 := by
  intro b
  induction b with
  | nil => intro _; rfl
  | cons kv rest ih =>
    intro hsort
    obtain ⟨hall, hrest⟩ := List.pairwise_cons.mp hsort
    cases hlt : lexLt kv.1 pre with
    | true =>
      have hPkv : pre.isPrefixOf kv.1 = false := by
        cases hP : (pre.isPrefixOf kv.1 : Bool) with
        | true => rw [lexLt_of_isPrefixOf hP] at hlt; cases hlt
        | false => rfl
      rw [scanEntries, List.dropWhile_cons, if_pos hlt, List.filter_cons, hPkv]
      simp only [Bool.false_eq_true, if_neg]
      exact ih hrest
    | false =>
      rw [scanEntries, List.dropWhile_cons, if_neg (by simp [hlt])]
      refine takeWhile_isPrefixOf_eq_filter pre (kv :: rest) hsort ?_
      intro x hx
      rcases List.mem_cons.mp hx with rfl | hx'
      · exact hlt
      · cases h : lexLt x.1 pre with
        | false => rfl
        | true => rw [lexLt_trans (hall x hx') h] at hlt; cases hlt

/-- C9 (confirmed): `PrefixExists` propagates `PathNotFound` when the
path does not resolve (and `ReadScan` does too); on a resolved (sorted)
bucket, `PrefixExists` is true exactly when some key starts with the
prefix bytes (an empty prefix matches every key, since it is a prefix
of all of them), scanning only from the first key at or after the
prefix and deciding at the first key there; and `ReadScan` returns
exactly the matching entries (keys with the values the cursor reports)
in ascending key order — the filter of the ordered entry list. -/
theorem prefix_scan_semantics (st : Bucket) (path : List Key) (pre : Key) :
    (setBucket st path = none →
      prefixExistsOp st path pre = (false, some .pathNotFound) ∧
        readScanOp st path pre = ([], [], some .pathNotFound)) ∧
      ∀ b, setBucket st path = some b → keysSorted b →
        ((prefixExistsOp st path pre).1 = true ↔
          ∃ kv ∈ b, pre.isPrefixOf kv.1 = true) ∧
        (prefixExistsOp st path pre).2 = none ∧
        readScanOp st path pre =
          ((b.filter fun kv => pre.isPrefixOf kv.1).map (·.1),
           (b.filter fun kv => pre.isPrefixOf kv.1).map fun kv => entryVal kv.2,
           none) := by
  constructor
  · intro h
    constructor
    · rw [prefixExistsOp]; simp only [h]
    · rw [readScanOp]; simp only [h]
  · intro b hres hsort
    refine ⟨?_, ?_, ?_⟩
    · rw [prefixExistsOp]
      simp only [hres]
      cases hdrop : b.dropWhile (fun kv => lexLt kv.1 pre) with
      | nil =>
        constructor
        · intro hf; exact Bool.noConfusion hf
        · rintro ⟨kv0, hmem, hpre0⟩
          have hmem' : kv0 ∈ b.dropWhile (fun kv => lexLt kv.1 pre) :=
            mem_dropWhile_of_false hmem (lexLt_of_isPrefixOf hpre0)
          rw [hdrop] at hmem'
          cases hmem'
      | cons h0 t0 =>
        constructor
        · intro hP
          have hmem : h0 ∈ b :=
            (List.dropWhile_sublist _).mem (hdrop ▸ List.mem_cons_self h0 t0)
          exact ⟨h0, hmem, hP⟩
        · rintro ⟨kv0, hmem, hpre0⟩
          have hh0 : lexLt h0.1 pre = false :=
            @dropWhile_head_false _ (fun kv => lexLt kv.1 pre) b h0 t0 hdrop
          have hmem' : kv0 ∈ h0 :: t0 := by
            rw [← hdrop]
            exact mem_dropWhile_of_false hmem (lexLt_of_isPrefixOf hpre0)
          rcases List.mem_cons.mp hmem' with rfl | hmem''
          · exact hpre0
          · have hsort' :
                List.Pairwise (fun x y : Key × Entry => lexLt x.1 y.1 = true)
                  (h0 :: t0) := by
              rw [← hdrop]
              exact hsort.sublist (List.dropWhile_sublist _)
            have hrel := (List.pairwise_cons.mp hsort').1 kv0 hmem''
            exact isPrefixOf_of_between hh0 (Or.inl hrel) hpre0
    · rw [prefixExistsOp]
      simp only [hres]
      cases b.dropWhile (fun kv => lexLt kv.1 pre) <;> rfl
    · rw [readScanOp]
      simp only [hres, scan_eq_filter pre hsort]

/-- Witness for `prefix_scan_semantics`: unresolvable path on the empty
store, and the concrete store `stA` with sorted bucket `bA`, prefix
"b". -/
theorem prefix_scan_semantics_witness :
    prefixExistsOp [] [[97]] [98] = (false, some SErr.pathNotFound) ∧
      keysSorted bA ∧
      readScanOp stA [[97]] [98] = ([[98]], [some [5]], none) := by
  refine ⟨((prefix_scan_semantics [] [[97]] [98]).1 rfl).1, by decide, ?_⟩
  exact ((prefix_scan_semantics stA [[97]] [98]).2 bA rfl (by decide)).2.2

/-! ### C6: pagination completeness -/

/-- Seeking a sorted bucket to one of its keys lands exactly on that
key's suffix. -/
theorem dropWhile_lexLt_suffix {b : Bucket} {pre0 tail : List (Key × Entry)}
    {kv : Key × Entry} (hsort : keysSorted b) (hb : b = pre0 ++ kv :: tail) :
    b.dropWhile (fun x => lexLt x.1 kv.1) = kv :: tail := by
  subst hb
  refine dropWhile_append_cons ?_ ?_
  · intro a ha
    have := (List.pairwise_append.mp hsort).2.2 a ha kv (List.mem_cons_self kv tail)
    exact this
  · exact lexLt_irrefl kv.1

/-- `seekTo` on a non-empty member key of a sorted bucket. -/
theorem seekTo_suffix {b : Bucket} {pre0 tail : List (Key × Entry)} {kv : Key × Entry}
    (hsort : keysSorted b) (hb : b = pre0 ++ kv :: tail) (hk : kv.1 ≠ []) :
    seekTo b kv.1 = kv :: tail := by
  rw [seekTo, if_neg hk]
  exact dropWhile_lexLt_suffix hsort hb

/-- The page the cursor loop produces when started at a member key of a
sorted bucket: the first `pageSize` entries of that key's suffix, and
the key right after them (empty when the suffix is exhausted). -/
theorem pageAt_suffix {b : Bucket} {pre0 tail : List (Key × Entry)} {kv : Key × Entry}
    (hsort : keysSorted b) (hb : b = pre0 ++ kv :: tail) (hk : kv.1 ≠ []) :
    pageAt b kv.1 =
      ((kv :: tail).take pageSize,
       match (kv :: tail).drop pageSize with
       | [] => []
       | kv2 :: _ => kv2.1) := by
  rw [pageAt, seekTo_suffix hsort hb hk]

/-- Following continuation tokens from a member key of a sorted bucket
collects exactly that key's suffix (fuel at least the suffix length). -/
theorem pagesFrom_suffix : ∀ (fuel : Nat) {b : Bucket}
    {pre0 tail : List (Key × Entry)} {kv : Key × Entry},
    b = pre0 ++ kv :: tail → keysSorted b → (∀ x ∈ b, x.1 ≠ ([] : Key)) →
    (kv :: tail).length ≤ fuel → pagesFrom b kv.1 fuel = kv :: tail := by
  intro fuel
  induction fuel with
  | zero =>
    intro b pre0 tail kv hb hsort hne hlen
    simp at hlen
  | succ n ih =>
    intro b pre0 tail kv hb hsort hne hlen
    have hk : kv.1 ≠ [] := hne kv (hb ▸ List.mem_append_right pre0 (List.mem_cons_self kv tail))
    have hpage := pageAt_suffix hsort hb hk
    rw [pagesFrom, hpage]
    cases hdrop : (kv :: tail).drop pageSize with
    | nil =>
      simp only [hdrop, if_pos]
      exact List.take_of_length_le (List.drop_eq_nil_iff.mp hdrop)
    | cons kv2 t2 =>
      have hmem2 : kv2 ∈ b := by
        rw [hb]
        refine List.mem_append_right pre0 ?_
        exact (List.drop_sublist pageSize (kv :: tail)).mem
          (hdrop ▸ List.mem_cons_self kv2 t2)
      have hk2 : kv2.1 ≠ [] := hne kv2 hmem2
      simp only [hdrop]
      rw [if_neg hk2]
      have hsplit : b = (pre0 ++ (kv :: tail).take pageSize) ++ kv2 :: t2 := by
        rw [List.append_assoc, ← hdrop, List.take_append_drop, hb]
      have hlen2 : (kv2 :: t2).length ≤ n := by
        have h1 : (kv2 :: t2).length = (kv :: tail).length - pageSize := by
          rw [← hdrop, List.length_drop]
        have h2 : 0 < pageSize := by rw [pageSize]; omega
        have h3 : (kv :: tail).drop pageSize ≠ [] := by rw [hdrop]; simp
        have h4 : ¬ (kv :: tail).length ≤ pageSize := fun hc =>
          h3 (List.drop_eq_nil_iff.mpr hc)
        omega
      rw [ih hsplit hsort hne hlen2, ← hdrop, List.take_append_drop]

/-- Paging a sorted bucket from the start with enough fuel returns the
whole entry list. -/
theorem pagesFrom_all {b : Bucket} (hsort : keysSorted b)
    (hne : ∀ x ∈ b, x.1 ≠ ([] : Key)) :
    pagesFrom b [] (b.length + 1) = b := by
  cases hb : b with
  | nil => rfl
  | cons kv tail =>
    rw [← hb]
    have hstart : seekTo b [] = b := by rw [seekTo, if_pos rfl]
    rw [pagesFrom, pageAt, hstart]
    cases hdrop : b.drop pageSize with
    | nil =>
      simp only [hdrop, if_pos]
      exact List.take_of_length_le (List.drop_eq_nil_iff.mp hdrop)
    | cons kv2 t2 =>
      have hmem2 : kv2 ∈ b :=
        (List.drop_sublist pageSize b).mem (hdrop ▸ List.mem_cons_self kv2 t2)
      have hk2 : kv2.1 ≠ [] := hne kv2 hmem2
      simp only [hdrop]
      rw [if_neg hk2]
      have hsplit : b = b.take pageSize ++ kv2 :: t2 := by
        rw [← hdrop, List.take_append_drop]
      have hlen2 : (kv2 :: t2).length ≤ b.length := by
        have h1 : (kv2 :: t2).length = b.length - pageSize := by
          rw [← hdrop, List.length_drop]
        have h2 : 0 < pageSize := by rw [pageSize]; omega
        omega
      rw [pagesFrom_suffix b.length hsplit hsort hne hlen2, ← hdrop,
        List.take_append_drop]

/-- `ListKeys` paging over a resolved bucket projects the entry
pages. -/
theorem listKeysPages_eq_pagesFrom {st : Bucket} {path : List Key} {b : Bucket}
    (hres : setBucket st path = some b) :
    ∀ (fuel : Nat) (tok : Key),
      listKeysPages st path tok fuel = (pagesFrom b tok fuel).map (·.1) := by
  intro fuel
  induction fuel with
  | zero => intro tok; rfl
  | succ n ih =>
    intro tok
    have hop : listKeysOp st path tok =
        ((pageAt b tok).1.map (·.1), (pageAt b tok).2, none) := by
      rw [listKeysOp]; simp only [hres]
    rw [listKeysPages, hop, pagesFrom]
    by_cases hc : (pageAt b tok).2 = []
    · rw [if_pos hc, if_pos hc]
    · rw [if_neg hc, if_neg hc, List.map_append, ih (pageAt b tok).2]

/-- `List` paging over a resolved bucket projects the entry pages into
parallel key and value sequences. -/
theorem listPages_eq_pagesFrom {st : Bucket} {path : List Key} {b : Bucket}
    (hres : setBucket st path = some b) :
    ∀ (fuel : Nat) (tok : Key),
      listPages st path tok fuel =
        ((pagesFrom b tok fuel).map (·.1),
         (pagesFrom b tok fuel).map fun kv => entryVal kv.2) := by
  intro fuel
  induction fuel with
  | zero => intro tok; rfl
  | succ n ih =>
    intro tok
    have hop : listOp st path tok =
        ((pageAt b tok).1.map (·.1), (pageAt b tok).1.map (fun kv => entryVal kv.2),
         (pageAt b tok).2, none) := by
      rw [listOp]; simp only [hres]
    rw [listPages, hop, pagesFrom]
    by_cases hc : (pageAt b tok).2 = []
    · rw [if_pos hc, if_pos hc]
    · rw [if_neg hc, if_neg hc, ih (pageAt b tok).2]
      simp only [List.map_append]

/-- `ListBuckets` paging (non-empty path) over a resolved bucket
projects the entry pages. -/
theorem listBucketsPages_eq_pagesFrom {st : Bucket} {p : Key} {ps : List Key}
    {b : Bucket} (hres : setBucket st (p :: ps) = some b) :
    ∀ (fuel : Nat) (tok : Key),
      listBucketsPages st (p :: ps) tok fuel = (pagesFrom b tok fuel).map (·.1) := by
  intro fuel
  induction fuel with
  | zero => intro tok; rfl
  | succ n ih =>
    intro tok
    have hop : listBucketsOp st (p :: ps) tok =
        ((pageAt b tok).1.map (·.1), (pageAt b tok).2, none) := by
      rw [listBucketsOp]
      case x_1 => simp
      simp only [hres]
    rw [listBucketsPages, hop, pagesFrom]
    by_cases hc : (pageAt b tok).2 = []
    · rw [if_pos hc, if_pos hc]
    · rw [if_neg hc, if_neg hc, List.map_append, ih (pageAt b tok).2]

/-- C6 (confirmed): over a container with a fixed, sorted set of
children with non-empty keys (the invariant bolt maintains), starting
each of `List`, `ListKeys` and `ListBuckets` (on its non-empty path)
with an empty page token and feeding every returned continuation token
into the next call until the token is empty concatenates to exactly the
container's child list — every child exactly once, in ascending byte
order of keys, and nothing else. -/
theorem pagination_complete (st : Bucket) (path : List Key) (b : Bucket)
    (hres : setBucket st path = some b) (hsort : keysSorted b)
    (hne : ∀ kv ∈ b, kv.1 ≠ ([] : Key)) :
    listKeysPages st path [] (b.length + 1) = b.map (·.1) ∧
      listPages st path [] (b.length + 1) =
        (b.map (·.1), b.map fun kv => entryVal kv.2) ∧
      listBucketsPages st path [] (b.length + 1) = b.map (·.1) := by
  cases path with
  | nil => rw [setBucket] at hres; cases hres
  | cons p ps =>
    have hall := pagesFrom_all hsort hne
    refine ⟨?_, ?_, ?_⟩
    · rw [listKeysPages_eq_pagesFrom hres (b.length + 1) [], hall]
    · rw [listPages_eq_pagesFrom hres (b.length + 1) [], hall]
    · rw [listBucketsPages_eq_pagesFrom hres (b.length + 1) [], hall]

/-- Witness for `pagination_complete` on the concrete store `stA`
(bucket "a" with sorted two-entry child list `bA`). -/
theorem pagination_complete_witness :
    keysSorted bA ∧ listKeysPages stA [[97]] [] 3 = [[98], [99]] := by
  exact ⟨by decide, (pagination_complete stA [[97]] bA rfl (by decide) (by decide)).1⟩
